import Mathlib

/-!
Shallow embedding of the iai benchmark harness core (`src/lib.rs`): the
cachegrind report parser (`parse_cachegrind_output`), the statistics engine
(`CachegrindStats.subtract`, `CachegrindStats.summarize`,
`CachegrindSummary.cycles`, `percentage_diff`) and the child-mode dispatch
branch of `runner`.

Modelling conventions: Rust strings are lists of characters; `u64` values are
`Nat` (the parser enforces the `2 ^ 64` bound exactly as `str::parse::<u64>`
does; `u64::saturating_sub` on such values is truncated `Nat` subtraction);
panics (`expect`, `unwrap`, out-of-bounds indexing, unchecked `u64`
subtraction underflow) are `Option.none`; the `f64` arithmetic inside
`percentage_diff` is modelled by exact rational arithmetic, which agrees with
the `f64` computation on the sign/threshold comparisons the theorems below
are about at the inputs they use.
-/

namespace Iai

/-- Rust string slices, modelled as lists of characters. -/
abbrev Str := List Char

/-- The whitespace test used by `str::trim` and `str::split_whitespace`. -/
def isWs (c : Char) : Bool := c.isWhitespace

/-- Rust `str::trim`: drop whitespace from both ends. -/
def trim (s : Str) : Str := ((s.dropWhile isWs).reverse.dropWhile isWs).reverse

/-- Scanner for `splitWs`: `acc` holds the reversed characters of the word
being read. -/
def splitWsAux : Str → Str → List Str
  | [], acc => if acc = [] then [] else [acc.reverse]
  | c :: cs, acc =>
    if isWs c then
      if acc = [] then splitWsAux cs [] else acc.reverse :: splitWsAux cs []
    else splitWsAux cs (c :: acc)

/-- Rust `str::split_whitespace`: the maximal runs of non-whitespace
characters, in order, with no empty runs. -/
def splitWs (s : Str) : List Str := splitWsAux s []

/-- Rust `str::strip_prefix`: `some` of the remainder when `pre` is a prefix
of `l`, otherwise `none`. -/
def dropPre : Str → Str → Option Str
  | [], l => some l
  | _ :: _, [] => none
  | p :: ps, c :: cs => if p = c then dropPre ps cs else none

/-- The scan loop of `parse_cachegrind_output`: over all lines, keep the
remainder (trimmed) of the last line that starts with `pre` — later matches
overwrite earlier ones, exactly as the Rust loop reassigns
`events_line` / `summary_line`. -/
def extractLine (pre : Str) (lines : List Str) : Option Str :=
  lines.foldl
    (fun acc l =>
      match dropPre pre l with
      | some rest => some (trim rest)
      | none => acc)
    none

/-- Strip one leading `'+'` if present, as `str::parse::<u64>` accepts. -/
def stripPlus (s : Str) : Str :=
  match s with
  | c :: rest => if c = '+' then rest else c :: rest
  | [] => []

/-- Rust `str::parse::<u64>()`: an optional `'+'`, then at least one ASCII
digit and nothing else, with the value below `2 ^ 64` (checked accumulation
overflows exactly when the denoted value does not fit in a `u64`). -/
def parseU64 (s : Str) : Option Nat :=
  let digits := stripPlus s
  if digits = [] then none
  else if digits.all Char.isDigit then
    let n := digits.foldl (fun a c => a * 10 + (c.toNat - 48)) 0
    if n < 2 ^ 64 then some n else none
  else none

/-- The `events.split_whitespace().zip(summary.split_whitespace().map(parse))`
collection: pair tokens positionally, truncating at the shorter sequence; a
summary token that the zip consumes and that fails to parse is a panic
(`none`).  Summary tokens beyond the events-token count are never parsed,
because `zip` stops polling the second iterator. -/
def zipParse : List Str → List Str → Option (List (Str × Nat))
  | [], _ => some []
  | _ :: _, [] => some []
  | t :: ts, v :: vs =>
    match parseU64 v with
    | none => none
    | some n => (zipParse ts vs).map (fun ps => (t, n) :: ps)

/-- `HashMap` lookup over the collected pairs: when a key was inserted twice,
the later insertion won, so the lookup returns the value of the last pair
with the key. -/
def hmLookup (ps : List (Str × Nat)) (k : Str) : Option Nat :=
  ps.foldl (fun acc p => if p.1 = k then some p.2 else acc) none

/-- The nine raw cachegrind counters (`struct CachegrindStats`), `u64` fields
modelled as `Nat`. -/
structure CachegrindStats where
  instruction_reads : Nat
  instruction_l1_misses : Nat
  instruction_cache_misses : Nat
  data_reads : Nat
  data_l1_read_misses : Nat
  data_cache_read_misses : Nat
  data_writes : Nat
  data_l1_write_misses : Nat
  data_cache_write_misses : Nat
deriving DecidableEq

/-- The cache-tier summary (`struct CachegrindSummary`). -/
structure CachegrindSummary where
  l1_hits : Nat
  l3_hits : Nat
  ram_hits : Nat
deriving DecidableEq

/-- The counter names the parser indexes the map with: `events["Ir"]` and so
on; a missing key panics (`none`). -/
def IrN : Str := "Ir".toList
def I1mrN : Str := "I1mr".toList
def ILmrN : Str := "ILmr".toList
def DrN : Str := "Dr".toList
def D1mrN : Str := "D1mr".toList
def DLmrN : Str := "DLmr".toList
def DwN : Str := "Dw".toList
def D1mwN : Str := "D1mw".toList
def DLmwN : Str := "DLmw".toList

/-- The nine required counter-name tokens, in the order the record is built. -/
def requiredNames : List Str :=
  [IrN, I1mrN, ILmrN, DrN, D1mrN, DLmrN, DwN, D1mwN, DLmwN]

/-- The record construction of `parse_cachegrind_output`: nine map lookups,
each of which panics (`none`) when its name is absent. -/
def statsFromPairs (ps : List (Str × Nat)) : Option CachegrindStats :=
  (hmLookup ps IrN).bind fun a =>
  (hmLookup ps I1mrN).bind fun b =>
  (hmLookup ps ILmrN).bind fun c =>
  (hmLookup ps DrN).bind fun d =>
  (hmLookup ps D1mrN).bind fun e =>
  (hmLookup ps DLmrN).bind fun f =>
  (hmLookup ps DwN).bind fun g =>
  (hmLookup ps D1mwN).bind fun h =>
  (hmLookup ps DLmwN).map fun i =>
  ⟨a, b, c, d, e, f, g, h, i⟩

/-- The `events: ` and `summary: ` line markers (the stripped prefixes include
the single trailing space, as in the source). -/
def evPre : Str := "events: ".toList
def smPre : Str := "summary: ".toList

/-- `parse_cachegrind_output`, over the report file's lines: find the last
`events:` and `summary:` lines, pair their whitespace-split tokens
positionally parsing each consumed summary token as `u64`, then build the
record by the nine name lookups.  Every panic of the Rust function is a
`none`. -/
def parse_cachegrind_output (lines : List Str) : Option CachegrindStats :=
  (extractLine evPre lines).bind fun ev =>
  (extractLine smPre lines).bind fun sm =>
  (zipParse (splitWs ev) (splitWs sm)).bind fun ps =>
  statsFromPairs ps

/-- `CachegrindStats::ram_accesses`. -/
def CachegrindStats.ram_accesses (s : CachegrindStats) : Nat :=
  s.instruction_cache_misses + s.data_cache_read_misses + s.data_cache_write_misses

/-- `CachegrindStats::summarize`.  The two `u64` subtractions are unchecked in
the source; an underflowing one is an arithmetic failure, modelled as
`none`. -/
def CachegrindStats.summarize (s : CachegrindStats) : Option CachegrindSummary :=
  let ram_hits := s.ram_accesses
  let l3_accesses := s.instruction_l1_misses + s.data_l1_read_misses + s.data_l1_write_misses
  if ram_hits ≤ l3_accesses then
    let l3_hits := l3_accesses - ram_hits
    let total_memory_rw := s.instruction_reads + s.data_reads + s.data_writes
    if ram_hits + l3_hits ≤ total_memory_rw then
      some ⟨total_memory_rw - (ram_hits + l3_hits), l3_hits, ram_hits⟩
    else none
  else none

/-- `CachegrindStats::subtract`: field-wise `u64::saturating_sub`, which on
`Nat` is exactly truncated subtraction. -/
def CachegrindStats.subtract (s calibration : CachegrindStats) : CachegrindStats where
  instruction_reads := s.instruction_reads - calibration.instruction_reads
  instruction_l1_misses := s.instruction_l1_misses - calibration.instruction_l1_misses
  instruction_cache_misses := s.instruction_cache_misses - calibration.instruction_cache_misses
  data_reads := s.data_reads - calibration.data_reads
  data_l1_read_misses := s.data_l1_read_misses - calibration.data_l1_read_misses
  data_cache_read_misses := s.data_cache_read_misses - calibration.data_cache_read_misses
  data_writes := s.data_writes - calibration.data_writes
  data_l1_write_misses := s.data_l1_write_misses - calibration.data_l1_write_misses
  data_cache_write_misses := s.data_cache_write_misses - calibration.data_cache_write_misses

/-- `CachegrindSummary::cycles`: the fixed 1/5/35 weighting. -/
def CachegrindSummary.cycles (s : CachegrindSummary) : Nat :=
  s.l1_hits + 5 * s.l3_hits + 35 * s.ram_hits

/-- What `percentage_diff` prints: either the literal `" (No change)"` string
or a signed percentage (whose displayed precision depends on its magnitude
but whose value is `pct`). -/
inductive PercentDiff where
  | noChange : PercentDiff
  | pct (value : ℚ) : PercentDiff
deriving DecidableEq

/-- `percentage_diff` from `runner`: equal values report no change; otherwise
`pct = (new - old) / old * 100` is computed and compared against the literal
`0.0001` — the comparison `pct < 0.0001` in the source is signed, with no
absolute value.  The `f64` arithmetic is modelled by exact rationals
(`0.0001` as `1 / 10000`).  The two can disagree near the threshold (at
`new = 1000001`, `old = 1000000` the `f64` value falls just below the
rounded threshold while the exact percentage is `1 / 10000`), so the
theorems below invoke this model only away from that boundary, where the
outcomes provably coincide: at equal inputs, at decreases (both computations
yield a non-positive percentage, below the positive threshold), and at
increases of at least one percent (the relative rounding error of the four
`f64` operations is orders of magnitude too small to carry a percentage of
at least `1` below `0.0001`). -/
def percentage_diff (new old : Nat) : PercentDiff :=
  if new = old then .noChange
  else
    let diff : ℚ := ((new : ℚ) - (old : ℚ)) / (old : ℚ)
    let pct : ℚ := diff * 100
    if pct < 1 / 10000 then .noChange else .pct pct

/-- The `--iai-run` (instrumented child) branch of `runner`, for a benchmark
list of length `benchCount` and the parsed `isize` index argument.  The
result is the trace of invoked benchmark indices: index `-1` returns at once
invoking nothing; any other index is cast `as usize` (two's-complement
wrapping into `[0, 2 ^ 64)` on a 64-bit target) and used to index `benches`,
where an out-of-bounds lookup panics (`none`). -/
def runner (benchCount : Nat) (index : Int) : Option (List Nat) :=
  if index = -1 then some []
  else
    let i : Nat := (index % (2 ^ 64 : Int)).toNat
    if i < benchCount then some [i] else none

/-- Space-separated concatenation of tokens, as cachegrind writes the
`events:` and `summary:` payloads. -/
def unwords : List Str → Str
  | [] => []
  | [w] => w
  | w :: ws => w ++ ' ' :: unwords ws

/-- Decimal rendering of a natural number (most significant digit first),
used to build well-formed report files for the round-trip theorems. -/
def natDigits (n : Nat) : List Char :=
  if n < 10 then [Nat.digitChar n]
  else natDigits (n / 10) ++ [Nat.digitChar (n % 10)]

/-- A well-formed two-line report file carrying the given name/value pairs:
an `events:` line with the names and a `summary:` line with the decimal
values, paired positionally. -/
def mkReport (ps : List (Str × Nat)) : List Str :=
  [evPre ++ unwords (ps.map Prod.fst),
   smPre ++ unwords (ps.map fun p => natDigits p.2)]

lemma natSub_cast_max (x y : Nat) : ((x - y : Nat) : ℤ) = max ((x : ℤ) - y) 0 := by
  omega

/-- Claim C3: every field of `subtract(a, b)` is the truncated difference —
it equals the ordinary (integer) difference of the fields when that is
non-negative and `0` otherwise, which is exactly `max (a.field - b.field) 0`
over `ℤ`; in particular every field is non-negative. -/
theorem subtract_saturating (a b : CachegrindStats) :
    ((a.subtract b).instruction_reads : ℤ) =
      max ((a.instruction_reads : ℤ) - b.instruction_reads) 0 ∧
    ((a.subtract b).instruction_l1_misses : ℤ) =
      max ((a.instruction_l1_misses : ℤ) - b.instruction_l1_misses) 0 ∧
    ((a.subtract b).instruction_cache_misses : ℤ) =
      max ((a.instruction_cache_misses : ℤ) - b.instruction_cache_misses) 0 ∧
    ((a.subtract b).data_reads : ℤ) = max ((a.data_reads : ℤ) - b.data_reads) 0 ∧
    ((a.subtract b).data_l1_read_misses : ℤ) =
      max ((a.data_l1_read_misses : ℤ) - b.data_l1_read_misses) 0 ∧
    ((a.subtract b).data_cache_read_misses : ℤ) =
      max ((a.data_cache_read_misses : ℤ) - b.data_cache_read_misses) 0 ∧
    ((a.subtract b).data_writes : ℤ) = max ((a.data_writes : ℤ) - b.data_writes) 0 ∧
    ((a.subtract b).data_l1_write_misses : ℤ) =
      max ((a.data_l1_write_misses : ℤ) - b.data_l1_write_misses) 0 ∧
    ((a.subtract b).data_cache_write_misses : ℤ) =
      max ((a.data_cache_write_misses : ℤ) - b.data_cache_write_misses) 0 := by
  refine ⟨?_, ?_, ?_, ?_, ?_, ?_, ?_, ?_, ?_⟩ <;>
    simp only [CachegrindStats.subtract] <;> exact natSub_cast_max _ _

/-- Claim C4: whenever `summarize` succeeds, the three tier hit counts
partition the total memory references:
`l1_hits + l3_hits + ram_hits = instruction_reads + data_reads + data_writes`. -/
theorem summarize_conservation (s : CachegrindStats) (cs : CachegrindSummary)
    (h : s.summarize = some cs) :
    cs.l1_hits + cs.l3_hits + cs.ram_hits =
      s.instruction_reads + s.data_reads + s.data_writes := by
  simp only [CachegrindStats.summarize, CachegrindStats.ram_accesses] at h
  split at h
  · split at h
    · rw [Option.some_inj] at h
      subst h
      simp only
      omega
    · exact absurd h (by simp)
  · exact absurd h (by simp)

/-- Witness for C4 at the spec's Scenario A counters. -/
theorem summarize_conservation_witness : (1755 : Nat) + 41 + 4 = 1000 + 500 + 300 :=
  summarize_conservation ⟨1000, 10, 1, 500, 20, 2, 300, 15, 1⟩ ⟨1755, 41, 4⟩ rfl

/-- Claim C8: `cycles` is exactly `l1_hits + 5 * l3_hits + 35 * ram_hits`,
and increasing any one of the three fields by any amount while holding the
other two fixed never decreases it. -/
theorem cycles_formula_monotone (s : CachegrindSummary) (d : Nat) :
    s.cycles = s.l1_hits + 5 * s.l3_hits + 35 * s.ram_hits ∧
    s.cycles ≤ CachegrindSummary.cycles ⟨s.l1_hits + d, s.l3_hits, s.ram_hits⟩ ∧
    s.cycles ≤ CachegrindSummary.cycles ⟨s.l1_hits, s.l3_hits + d, s.ram_hits⟩ ∧
    s.cycles ≤ CachegrindSummary.cycles ⟨s.l1_hits, s.l3_hits, s.ram_hits + d⟩ := by
  refine ⟨rfl, ?_, ?_, ?_⟩ <;> simp only [CachegrindSummary.cycles] <;> omega

/-- Claim C9: `summarize` succeeds exactly when the L1-miss sum dominates the
last-level-miss sum and the total memory references dominate the L1-miss sum;
outside this precondition the unchecked `u64` subtractions underflow and no
summary is produced.  Moreover the saturating calibration subtraction can
carry two values satisfying the precondition to one violating it. -/
theorem summarize_domain :
    (∀ s : CachegrindStats, s.summarize.isSome ↔
      (s.instruction_cache_misses + s.data_cache_read_misses + s.data_cache_write_misses ≤
         s.instruction_l1_misses + s.data_l1_read_misses + s.data_l1_write_misses ∧
       s.instruction_l1_misses + s.data_l1_read_misses + s.data_l1_write_misses ≤
         s.instruction_reads + s.data_reads + s.data_writes)) ∧
    ∃ a b : CachegrindStats, a.summarize.isSome ∧ b.summarize.isSome ∧
      (a.subtract b).summarize = none := by
  constructor
  · intro s
    simp only [CachegrindStats.summarize, CachegrindStats.ram_accesses]
    split
    · split
      · simp only [Option.isSome_some, true_iff]
        omega
      · simp only [Option.isSome_none, Bool.false_eq_true, false_iff]
        omega
    · simp only [Option.isSome_none, Bool.false_eq_true, false_iff]
      omega
  · exact ⟨⟨10, 5, 3, 0, 0, 0, 0, 0, 0⟩, ⟨10, 4, 0, 0, 0, 0, 0, 0, 0⟩,
      by decide, by decide, by decide⟩

/-- Claim C5: in child mode, index `-1` returns at once invoking no
benchmark, and an index `0 ≤ i < benchCount` invokes exactly the `i`-th
benchmark exactly once (the trace is `[i]`). -/
theorem runner_child_indices (n : Nat) (index : Int)
    (h0 : 0 ≤ index) (h1 : index < (n : Int)) (hn : n ≤ 2 ^ 63) :
    runner n (-1) = some [] ∧ runner n index = some [index.toNat] := by
  refine ⟨rfl, ?_⟩
  have hne : index ≠ -1 := by omega
  simp only [runner, if_neg hne]
  have hlt : index < (2 : Int) ^ 64 := by
    have : (n : Int) ≤ 2 ^ 63 := by exact_mod_cast hn
    omega
  rw [Int.emod_eq_of_lt h0 hlt, if_pos (by omega)]

/-- Witness for C5 with three registered benchmarks and index 2. -/
theorem runner_child_indices_witness :
    runner 3 (-1) = some [] ∧ runner 3 2 = some [2] := by
  simpa using runner_child_indices 3 2 (by decide) (by decide) (by decide)

/-- Claim C10: in child mode an index below `-1` is not a calibration no-op:
the `as usize` cast wraps it to an index at least `2 ^ 63`, which is out of
bounds for any benchmark list, so the lookup panics instead of returning. -/
theorem runner_below_minus_one (n : Nat) (index : Int)
    (hlo : -(2 ^ 63) ≤ index) (hhi : index < -1) (hn : n ≤ 2 ^ 63) :
    runner n index = none := by
  have hne : index ≠ -1 := by omega
  simp only [runner, if_neg hne]
  have hmod : index % ((2 : Int) ^ 64) = index + 2 ^ 64 := by omega
  rw [hmod, if_neg]
  omega

/-- Witness for C10 at index `-2` with three registered benchmarks. -/
theorem runner_below_minus_one_witness : runner 3 (-2) = none :=
  runner_below_minus_one 3 (-2) (by decide) (by decide) (by decide)

/-- Counterexample for C1: a 50% decrease (`new = 50`, `old = 100 > 0`) is
reported as no change, not as a signed percentage: the source's noise-floor
test `pct < 0.0001` is signed, so every negative percentage falls below it. -/
theorem percentage_diff_decrease_counterexample :
    percentage_diff 50 100 = PercentDiff.noChange ∧ (50 : Nat) ≠ 100 ∧ (0 : Nat) < 100 := by
  refine ⟨?_, by decide, by decide⟩
  simp only [percentage_diff]
  norm_num

/-- Claim C1 as amended: for `old > 0`, `percentage_diff` reports no change
when the values are equal and for every decrease (the source's noise-floor
comparison is signed, so every negative percentage falls below it); a
sufficiently large increase — any increase of at least one percent, written
`101 * old ≤ 100 * new` — is reported as a signed percentage. -/
theorem percentage_diff_signed_threshold (new old : Nat) (h : 0 < old) :
    (new = old → percentage_diff new old = .noChange) ∧
    (new < old → percentage_diff new old = .noChange) ∧
    (101 * old ≤ 100 * new →
      percentage_diff new old = .pct (((new : ℚ) - old) / old * 100)) := by
  have hpos : (0 : ℚ) < old := by exact_mod_cast h
  refine ⟨fun he => by simp [percentage_diff, he], ?_, ?_⟩
  · intro hlt
    have hne : new ≠ old := Nat.ne_of_lt hlt
    have hneg : ((new : ℚ) - old) / old * 100 < 1 / 10000 := by
      have h1 : ((new : ℚ) - old) < 0 := by
        have : (new : ℚ) < old := by exact_mod_cast hlt
        linarith
      have h2 : ((new : ℚ) - old) / old < 0 := div_neg_of_neg_of_pos h1 hpos
      nlinarith
    simp only [percentage_diff, if_neg hne]
    rw [if_pos hneg]
  · intro hge
    have hne : new ≠ old := by omega
    have hc : (101 : ℚ) * old ≤ 100 * new := by exact_mod_cast hge
    have hone : (1 : ℚ) ≤ ((new : ℚ) - old) / old * 100 := by
      rw [div_mul_eq_mul_div, le_div_iff₀ hpos]
      linarith
    have hq : ¬ (((new : ℚ) - old) / old * 100 < 1 / 10000) :=
      not_lt.mpr (le_trans (by norm_num) hone)
    simp only [percentage_diff, if_neg hne]
    rw [if_neg hq]

/-- Witness for C1's amended statement: a 100% increase is reported as a
signed percentage. -/
theorem percentage_diff_signed_threshold_witness :
    percentage_diff 100 50 = PercentDiff.pct 100 := by
  have h := (percentage_diff_signed_threshold 100 50 (by decide)).2.2 (by decide)
  norm_num at h
  exact h

/-- Counterexample for C2: a report file whose `events:` line carries the
spec's long counter names does not parse — the parser indexes the map with
cachegrind's abbreviated tokens (`Ir`, `I1mr`, ...), so every lookup fails. -/
theorem parse_long_names_counterexample :
    parse_cachegrind_output
      ["events: instruction-reads instruction-L1-misses instruction-last-level-misses data-reads data-L1-read-misses data-last-level-read-misses data-writes data-L1-write-misses data-last-level-write-misses".toList,
       "summary: 1 2 3 4 5 6 7 8 9".toList] = none := by
  decide

/-- Counterexample for C6: a summary token beyond the events-token count is
never parsed (the `zip` stops polling the summary iterator), so this file
with the non-numeric tenth summary value `x` parses successfully — the claim
says any non-numeric summary value is a fatal parse failure. -/
theorem parse_unpaired_garbage_counterexample :
    parse_cachegrind_output
      ["events: Ir I1mr ILmr Dr D1mr DLmr Dw D1mw DLmw".toList,
       "summary: 1 2 3 4 5 6 7 8 9 x".toList] = some ⟨1, 2, 3, 4, 5, 6, 7, 8, 9⟩ := by
  decide



lemma splitWsAux_word (w : Str) (hnw : ∀ c ∈ w, isWs c = false) :
    ∀ s acc, splitWsAux (w ++ s) acc = splitWsAux s (w.reverse ++ acc) := by
  induction w with
  | nil => intro s acc; simp
  | cons c w ih =>
    intro s acc
    have hc : isWs c = false := hnw c (by simp)
    simp only [List.cons_append, splitWsAux, hc, Bool.false_eq_true, if_false]
    show splitWsAux (w ++ s) (c :: acc) = splitWsAux s ((c :: w).reverse ++ acc)
    rw [ih (fun x hx => hnw x (by simp [hx])) s (c :: acc)]
    simp

lemma splitWs_single (w : Str) (hne : w ≠ []) (hnw : ∀ c ∈ w, isWs c = false) :
    splitWs w = [w] := by
  have h := splitWsAux_word w hnw [] []
  simp only [List.append_nil] at h
  rw [splitWs, h, splitWsAux]
  simp [hne]

lemma splitWs_word_cons (w r : Str) (hne : w ≠ []) (hnw : ∀ c ∈ w, isWs c = false) :
    splitWs (w ++ ' ' :: r) = w :: splitWs r := by
  rw [splitWs, splitWsAux_word w hnw (' ' :: r) []]
  simp only [List.append_nil]
  rw [splitWsAux]
  simp [isWs, hne, splitWs]

lemma splitWs_unwords (ts : List Str) (h : ∀ w ∈ ts, w ≠ [] ∧ ∀ c ∈ w, isWs c = false) :
    splitWs (unwords ts) = ts := by
  induction ts with
  | nil => rfl
  | cons w ws ih =>
    cases ws with
    | nil => exact splitWs_single w (h w (by simp)).1 (h w (by simp)).2
    | cons w2 ws2 =>
      rw [show unwords (w :: w2 :: ws2) = w ++ ' ' :: unwords (w2 :: ws2) from rfl]
      rw [splitWs_word_cons w _ (h w (by simp)).1 (h w (by simp)).2]
      rw [ih (fun x hx => h x (by simp [hx]))]

lemma dropWhile_unwords (w : Str) (ws : List Str) (hne : w ≠ [])
    (hnw : ∀ c ∈ w, isWs c = false) :
    (unwords (w :: ws)).dropWhile isWs = unwords (w :: ws) := by
  cases w with
  | nil => exact absurd rfl hne
  | cons c w' =>
    have hc : isWs c = false := hnw c (by simp)
    cases ws with
    | nil => simp [unwords, List.dropWhile_cons, hc]
    | cons w2 ws2 => simp [unwords, List.dropWhile_cons, hc]

lemma unwords_reverse_cons (ts : List Str) (hts : ts ≠ [])
    (h : ∀ w ∈ ts, w ≠ [] ∧ ∀ c ∈ w, isWs c = false) :
    ∃ c r, (unwords ts).reverse = c :: r ∧ isWs c = false := by
  induction ts with
  | nil => exact absurd rfl hts
  | cons w ws ih =>
    cases ws with
    | nil =>
      obtain ⟨hne, hnw⟩ := h w (by simp)
      obtain ⟨c, r, hcr⟩ := List.exists_cons_of_ne_nil
        (fun hr => hne (by simpa using List.reverse_eq_nil_iff.mp hr))
      refine ⟨c, r, hcr, hnw c ?_⟩
      have hm : c ∈ w.reverse := by rw [hcr]; simp
      simpa using hm
    | cons w2 ws2 =>
      obtain ⟨c, r, hcr, hc⟩ := ih (by simp) (fun x hx => h x (by simp [hx]))
      refine ⟨c, r ++ ' ' :: w.reverse, ?_, hc⟩
      rw [show unwords (w :: w2 :: ws2) = w ++ ' ' :: unwords (w2 :: ws2) from rfl]
      simp [hcr]

lemma trim_unwords (ts : List Str) (h : ∀ w ∈ ts, w ≠ [] ∧ ∀ c ∈ w, isWs c = false) :
    trim (unwords ts) = unwords ts := by
  cases ts with
  | nil => rfl
  | cons w ws =>
    have hd : (unwords (w :: ws)).dropWhile isWs = unwords (w :: ws) :=
      dropWhile_unwords w ws (h w (by simp)).1 (h w (by simp)).2
    obtain ⟨c, r, hcr, hc⟩ := unwords_reverse_cons (w :: ws) (by simp) h
    rw [trim, hd, hcr, List.dropWhile_cons, hc]
    simp only [Bool.false_eq_true, if_false]
    rw [← hcr, List.reverse_reverse]

lemma digitChar_isDigit (d : Nat) (hd : d < 10) : (Nat.digitChar d).isDigit = true := by
  interval_cases d <;> decide

lemma digitChar_notWs (d : Nat) (hd : d < 10) : isWs (Nat.digitChar d) = false := by
  interval_cases d <;> decide

lemma digitChar_val (d : Nat) (hd : d < 10) : (Nat.digitChar d).toNat - 48 = d := by
  interval_cases d <;> decide

lemma natDigits_ne_nil (n : Nat) : natDigits n ≠ [] := by
  rw [natDigits]
  split <;> simp

lemma natDigits_all_digit (n : Nat) : ∀ c ∈ natDigits n, c.isDigit = true := by
  induction n using Nat.strong_induction_on with
  | _ n ih =>
    rw [natDigits]
    split
    · rename_i h
      intro c hc
      simp only [List.mem_singleton] at hc
      subst hc
      exact digitChar_isDigit n h
    · rename_i h
      intro c hc
      simp only [List.mem_append, List.mem_singleton] at hc
      rcases hc with hc | hc
      · exact ih (n / 10) (by omega) c hc
      · subst hc
        exact digitChar_isDigit (n % 10) (Nat.mod_lt n (by omega))

lemma natDigits_notWs (n : Nat) : ∀ c ∈ natDigits n, isWs c = false := by
  induction n using Nat.strong_induction_on with
  | _ n ih =>
    rw [natDigits]
    split
    · rename_i h
      intro c hc
      simp only [List.mem_singleton] at hc
      subst hc
      exact digitChar_notWs n h
    · rename_i h
      intro c hc
      simp only [List.mem_append, List.mem_singleton] at hc
      rcases hc with hc | hc
      · exact ih (n / 10) (by omega) c hc
      · subst hc
        exact digitChar_notWs (n % 10) (Nat.mod_lt n (by omega))

lemma natDigits_foldl (n : Nat) :
    (natDigits n).foldl (fun a c => a * 10 + (c.toNat - 48)) 0 = n := by
  induction n using Nat.strong_induction_on with
  | _ n ih =>
    rw [natDigits]
    split
    · rename_i h
      simp only [List.foldl_cons, List.foldl_nil, digitChar_val n h]
      omega
    · rename_i h
      rw [List.foldl_append, ih (n / 10) (by omega)]
      simp only [List.foldl_cons, List.foldl_nil, digitChar_val (n % 10) (Nat.mod_lt n (by omega))]
      omega

lemma parseU64_natDigits (n : Nat) (hn : n < 2 ^ 64) :
    parseU64 (natDigits n) = some n := by
  have hne := natDigits_ne_nil n
  have hall := natDigits_all_digit n
  have hplus : stripPlus (natDigits n) = natDigits n := by
    cases hd : natDigits n with
    | nil => exact absurd hd hne
    | cons c r =>
      have hcd : c.isDigit = true := hall c (by rw [hd]; simp)
      have hcp : ¬ c = '+' := by
        rintro rfl
        exact absurd hcd (by decide)
      simp [stripPlus, hcp]
  simp only [parseU64, hplus, if_neg hne, List.all_eq_true.mpr hall, if_true,
    natDigits_foldl n, if_pos hn]

lemma foldl_lookup_or (k : Str) (ps : List (Str × Nat)) (a : Option Nat) :
    ps.foldl (fun acc p => if p.1 = k then some p.2 else acc) a = (hmLookup ps k).or a := by
  induction ps generalizing a with
  | nil => rfl
  | cons p ps ih =>
    rw [show hmLookup (p :: ps) k =
        ps.foldl (fun acc q => if q.1 = k then some q.2 else acc)
          (if p.1 = k then some p.2 else none) from rfl]
    rw [List.foldl_cons, ih, ih]
    cases hmLookup ps k with
    | none =>
      by_cases hpk : p.1 = k <;> simp [hpk, Option.or]
    | some v => simp [Option.or]

lemma hmLookup_cons (p : Str × Nat) (ps : List (Str × Nat)) (k : Str) :
    hmLookup (p :: ps) k = (hmLookup ps k).or (if p.1 = k then some p.2 else none) := by
  rw [hmLookup, List.foldl_cons, foldl_lookup_or]

lemma hmLookup_eq_none_of_not_mem (ps : List (Str × Nat)) (k : Str)
    (h : k ∉ ps.map Prod.fst) : hmLookup ps k = none := by
  induction ps with
  | nil => rfl
  | cons p ps ih =>
    simp only [List.map_cons, List.mem_cons, not_or] at h
    rw [hmLookup_cons, ih h.2, if_neg (fun hh => h.1 hh.symm)]
    rfl

lemma hmLookup_isSome_of_mem (ps : List (Str × Nat)) (k : Str)
    (h : k ∈ ps.map Prod.fst) : (hmLookup ps k).isSome := by
  induction ps with
  | nil => simp at h
  | cons p ps ih =>
    rw [hmLookup_cons]
    simp only [List.map_cons, List.mem_cons] at h
    cases ho : hmLookup ps k with
    | some v => simp [Option.or]
    | none =>
      rcases h with h | h
      · simp [Option.or, if_pos h.symm]
      · rw [ho] at ih
        exact absurd (ih h) (by simp)

lemma hmLookup_nodup_mem (ps : List (Str × Nat)) (hnd : (ps.map Prod.fst).Nodup)
    (p : Str × Nat) (hp : p ∈ ps) : hmLookup ps p.1 = some p.2 := by
  induction ps with
  | nil => simp at hp
  | cons q ps ih =>
    simp only [List.map_cons, List.nodup_cons] at hnd
    rw [hmLookup_cons]
    rcases List.mem_cons.mp hp with rfl | hp2
    · rw [hmLookup_eq_none_of_not_mem ps p.1 hnd.1, if_pos rfl]
      rfl
    · rw [ih hnd.2 hp2]
      rfl

lemma zipParse_eq_none_iff (ts vs : List Str) :
    zipParse ts vs = none ↔ ∃ v ∈ vs.take ts.length, parseU64 v = none := by
  induction ts generalizing vs with
  | nil => simp [zipParse]
  | cons t ts ih =>
    cases vs with
    | nil => simp [zipParse]
    | cons v vs =>
      simp only [zipParse, List.length_cons, List.take_succ_cons]
      cases hp : parseU64 v with
      | none => simp [hp]
      | some n => simp [hp, ih]

lemma zipParse_map (ps : List (Str × Nat)) (hv : ∀ p ∈ ps, p.2 < 2 ^ 64) :
    zipParse (ps.map Prod.fst) (ps.map fun p => natDigits p.2) = some ps := by
  induction ps with
  | nil => rfl
  | cons p ps ih =>
    simp only [List.map_cons, zipParse]
    rw [parseU64_natDigits p.2 (hv p (by simp)), ih (fun q hq => hv q (by simp [hq]))]
    rfl

lemma statsFromPairs_isSome_iff (ps : List (Str × Nat)) :
    (statsFromPairs ps).isSome ↔ ∀ name ∈ requiredNames, (hmLookup ps name).isSome := by
  constructor
  · intro h
    rw [Option.isSome_iff_exists] at h
    obtain ⟨s, hs⟩ := h
    simp only [statsFromPairs, Option.bind_eq_some, Option.map_eq_some'] at hs
    obtain ⟨a, ha, b, hb, c, hc, d, hd, e, he, f, hf, g, hg, h8, hh8, i, hi, -⟩ := hs
    intro name hname
    simp only [requiredNames, List.mem_cons, List.not_mem_nil, or_false] at hname
    rcases hname with rfl | rfl | rfl | rfl | rfl | rfl | rfl | rfl | rfl <;>
      simp [ha, hb, hc, hd, he, hf, hg, hh8, hi]
  · intro h
    obtain ⟨a, ha⟩ := Option.isSome_iff_exists.mp (h IrN (by simp [requiredNames]))
    obtain ⟨b, hb⟩ := Option.isSome_iff_exists.mp (h I1mrN (by simp [requiredNames]))
    obtain ⟨c, hc⟩ := Option.isSome_iff_exists.mp (h ILmrN (by simp [requiredNames]))
    obtain ⟨d, hd⟩ := Option.isSome_iff_exists.mp (h DrN (by simp [requiredNames]))
    obtain ⟨e, he⟩ := Option.isSome_iff_exists.mp (h D1mrN (by simp [requiredNames]))
    obtain ⟨f, hf⟩ := Option.isSome_iff_exists.mp (h DLmrN (by simp [requiredNames]))
    obtain ⟨g, hg⟩ := Option.isSome_iff_exists.mp (h DwN (by simp [requiredNames]))
    obtain ⟨h8, hh8⟩ := Option.isSome_iff_exists.mp (h D1mwN (by simp [requiredNames]))
    obtain ⟨i, hi⟩ := Option.isSome_iff_exists.mp (h DLmwN (by simp [requiredNames]))
    simp [statsFromPairs, ha, hb, hc, hd, he, hf, hg, hh8, hi]

lemma statsFromPairs_eq_none_iff (ps : List (Str × Nat)) :
    statsFromPairs ps = none ↔ ∃ name ∈ requiredNames, hmLookup ps name = none := by
  rw [← Option.not_isSome_iff_eq_none, statsFromPairs_isSome_iff]
  push_neg
  simp only [Option.not_isSome_iff_eq_none]

lemma parse_mkReport (ps : List (Str × Nat))
    (hw : ∀ p ∈ ps, p.1 ≠ [] ∧ ∀ c ∈ p.1, isWs c = false)
    (hv : ∀ p ∈ ps, p.2 < 2 ^ 64) :
    parse_cachegrind_output (mkReport ps) = statsFromPairs ps := by
  have hnames : ∀ w ∈ ps.map Prod.fst, w ≠ [] ∧ ∀ c ∈ w, isWs c = false := by
    intro w hw2
    obtain ⟨p, hp, rfl⟩ := List.mem_map.mp hw2
    exact hw p hp
  have hdigs : ∀ w ∈ ps.map (fun p => natDigits p.2), w ≠ [] ∧ ∀ c ∈ w, isWs c = false := by
    intro w hw2
    obtain ⟨p, hp, rfl⟩ := List.mem_map.mp hw2
    exact ⟨natDigits_ne_nil _, natDigits_notWs _⟩
  have he : extractLine evPre (mkReport ps) =
      some (trim (unwords (ps.map Prod.fst))) := rfl
  have hs : extractLine smPre (mkReport ps) =
      some (trim (unwords (ps.map fun p => natDigits p.2))) := rfl
  simp only [parse_cachegrind_output, he, hs, Option.some_bind]
  rw [trim_unwords _ hnames, trim_unwords _ hdigs, splitWs_unwords _ hnames,
    splitWs_unwords _ hdigs, zipParse_map ps hv, Option.some_bind]

/-- Claim C7: parsing a well-formed report file recovers exactly the pairs
written into it — for any arrangement `ps` of name/value pairs (names
nonempty, whitespace-free, pairwise distinct; values in `u64` range), the
parse of the generated file is the by-name lookup record over `ps`, and that
lookup returns for each written name exactly the integer written beside it.
The arrangement `ps` is arbitrary, so the result is independent of the
textual order of the `events:` tokens. -/
theorem parse_roundtrip (ps : List (Str × Nat))
    (hw : ∀ p ∈ ps, p.1 ≠ [] ∧ ∀ c ∈ p.1, isWs c = false)
    (hv : ∀ p ∈ ps, p.2 < 2 ^ 64)
    (hnd : (ps.map Prod.fst).Nodup) :
    parse_cachegrind_output (mkReport ps) = statsFromPairs ps ∧
    ∀ p ∈ ps, hmLookup ps p.1 = some p.2 :=
  ⟨parse_mkReport ps hw hv, fun p hp => hmLookup_nodup_mem ps hnd p hp⟩

/-- Witness for C7: the spec's Scenario A counters, written with the
`events:` tokens in a scrambled order, parse back to themselves. -/
theorem parse_roundtrip_witness :
    parse_cachegrind_output (mkReport [(DrN, 500), (IrN, 1000), (I1mrN, 10), (ILmrN, 1),
        (D1mrN, 20), (DLmrN, 2), (DwN, 300), (D1mwN, 15), (DLmwN, 1)]) =
      statsFromPairs [(DrN, 500), (IrN, 1000), (I1mrN, 10), (ILmrN, 1),
        (D1mrN, 20), (DLmrN, 2), (DwN, 300), (D1mwN, 15), (DLmwN, 1)] ∧
    ∀ p ∈ [(DrN, 500), (IrN, 1000), (I1mrN, 10), (ILmrN, 1),
        (D1mrN, 20), (DLmrN, 2), (DwN, 300), (D1mwN, 15), (DLmwN, 1)],
      hmLookup [(DrN, 500), (IrN, 1000), (I1mrN, 10), (ILmrN, 1),
        (D1mrN, 20), (DLmrN, 2), (DwN, 300), (D1mwN, 15), (DLmwN, 1)] p.1 = some p.2 :=
  parse_roundtrip _ (by decide) (by decide) (by decide)

/-- Claim C2 as amended: the parser requires the case-sensitive abbreviated
cachegrind tokens `Ir I1mr ILmr Dr D1mr DLmr Dw D1mw DLmw` (not the long
counter names); a report whose `events:` line contains all of these tokens,
with matching `summary:` values, parses successfully. -/
theorem parse_abbreviated_tokens (ps : List (Str × Nat))
    (hw : ∀ p ∈ ps, p.1 ≠ [] ∧ ∀ c ∈ p.1, isWs c = false)
    (hv : ∀ p ∈ ps, p.2 < 2 ^ 64)
    (hreq : ∀ name ∈ requiredNames, name ∈ ps.map Prod.fst) :
    (parse_cachegrind_output (mkReport ps)).isSome := by
  rw [parse_mkReport ps hw hv, statsFromPairs_isSome_iff]
  exact fun name hname => hmLookup_isSome_of_mem ps name (hreq name hname)

/-- Witness for C2's amended statement: a report carrying the nine
abbreviated tokens (in a scrambled order) parses successfully. -/
theorem parse_abbreviated_tokens_witness :
    (parse_cachegrind_output (mkReport [(DLmwN, 9), (IrN, 1), (I1mrN, 2), (ILmrN, 3),
      (DrN, 4), (D1mrN, 5), (DLmrN, 6), (DwN, 7), (D1mwN, 8)])).isSome :=
  parse_abbreviated_tokens _ (by decide) (by decide) (by decide)

/-- Claim C6 as amended: parsing fails exactly when the `events:` line or the
`summary:` line is absent, when a summary token that is positionally paired
with an events token is not a non-negative 64-bit integer, or when one of the
nine required counter names is missing from the name-to-value mapping.
(Summary tokens beyond the events-token count are never examined.) -/
theorem parse_failure_characterization (lines : List Str) :
    parse_cachegrind_output lines = none ↔
      extractLine evPre lines = none ∨ extractLine smPre lines = none ∨
      ∃ ev sm, extractLine evPre lines = some ev ∧ extractLine smPre lines = some sm ∧
        ((∃ v ∈ (splitWs sm).take (splitWs ev).length, parseU64 v = none) ∨
         ∃ qs, zipParse (splitWs ev) (splitWs sm) = some qs ∧
           ∃ name ∈ requiredNames, hmLookup qs name = none) := by
  cases hev : extractLine evPre lines with
  | none => simp [parse_cachegrind_output, hev]
  | some ev =>
    cases hsm : extractLine smPre lines with
    | none => simp [parse_cachegrind_output, hev, hsm]
    | some sm =>
      cases hz : zipParse (splitWs ev) (splitWs sm) with
      | none =>
        have h1 := (zipParse_eq_none_iff (splitWs ev) (splitWs sm)).mp hz
        simp [parse_cachegrind_output, hev, hsm, hz, h1]
      | some qs =>
        have h1 : ¬ ∃ v ∈ (splitWs sm).take (splitWs ev).length, parseU64 v = none := by
          rw [← zipParse_eq_none_iff]
          simp [hz]
        simp [parse_cachegrind_output, hev, hsm, hz, h1, statsFromPairs_eq_none_iff]

end Iai
